import Mathlib

/-!
Shallow embedding of `black_scholes.py` (a Streamlit Black-Scholes option
pricing app) over the real numbers, together with theorems settling the
specification claims about it.

The computational core of the source file is:

* `black_scholes(S, K, T, r, sigma, option_type='call')` — the closed-form
  Black-Scholes price, using `scipy.stats.norm.cdf` (the standard normal
  cumulative distribution function);
* a heatmap sweep building two grids `call_prices` / `put_prices` by calling
  `black_scholes` at every pair drawn from `np.linspace` samples of spot and
  volatility.

Python floats are modelled by `ℝ`; `norm.cdf` by the Lebesgue integral of the
standard normal density over `Iic x`; a Python function that can fall off the
end without returning (the invalid-kind branch) returns `Option ℝ`, with
`none` standing for Python's implicit `None`.
-/

open MeasureTheory Real Set

namespace BS

/-- The standard normal probability density function
`(1/√(2π)) · exp(-x²/2)`, the density underlying `scipy.stats.norm`. -/
noncomputable def norm_pdf (x : ℝ) : ℝ :=
  (Real.sqrt (2 * Real.pi))⁻¹ * Real.exp (-x ^ 2 / 2)

/-- `scipy.stats.norm.cdf`: the standard normal cumulative distribution
function `Φ(x) = ∫_{-∞}^{x} norm_pdf`. -/
noncomputable def norm_cdf (x : ℝ) : ℝ :=
  ∫ t in Set.Iic x, norm_pdf t

/-- Line 9 of the source:
`d1 = (np.log(S / K) + (r + 0.5 * sigma ** 2) * T) / (sigma * np.sqrt(T))`. -/
noncomputable def d1 (S K T r sigma : ℝ) : ℝ :=
  (Real.log (S / K) + (r + 0.5 * sigma ^ 2) * T) / (sigma * Real.sqrt T)

/-- Line 10 of the source: `d2 = d1 - sigma * np.sqrt(T)`. -/
noncomputable def d2 (S K T r sigma : ℝ) : ℝ :=
  d1 S K T r sigma - sigma * Real.sqrt T

/-- Lines 8-14 of the source: the pricing function
`black_scholes(S, K, T, r, sigma, option_type='call')`.
The `call` branch returns `S*Φ(d1) - K*exp(-r*T)*Φ(d2)`, the `put` branch
returns `K*exp(-r*T)*Φ(-d2) - S*Φ(-d1)`, and any other `option_type` falls
off the end of the Python function, i.e. silently returns `None` (`none`). -/
noncomputable def black_scholes (S K T r sigma : ℝ)
    (option_type : String := "call") : Option ℝ :=
  if option_type = "call" then
    some (S * norm_cdf (d1 S K T r sigma) -
          K * Real.exp (-r * T) * norm_cdf (d2 S K T r sigma))
  else if option_type = "put" then
    some (K * Real.exp (-r * T) * norm_cdf (-(d2 S K T r sigma)) -
          S * norm_cdf (-(d1 S K T r sigma)))
  else
    none

/-- `np.linspace(lo, hi, num)`: `num` evenly spaced samples including both
endpoints; sample `i` is `lo + i * (hi - lo) / (num - 1)`. -/
noncomputable def linspace (lo hi : ℝ) (num : ℕ) : List ℝ :=
  (List.range num).map fun i : ℕ => lo + (i : ℝ) * (hi - lo) / ((num : ℝ) - 1)

/-- The heatmap sweep (source lines 124-132), call side: row `i` ranges over
the `i`-th volatility sample, column `j` over the `j`-th spot sample. -/
noncomputable def call_prices (K T r min_spot max_spot min_vol max_vol : ℝ)
    (steps : ℕ) : List (List (Option ℝ)) :=
  (linspace min_vol max_vol steps).map fun sigma =>
    (linspace min_spot max_spot steps).map fun S =>
      black_scholes S K T r sigma "call"

/-- The heatmap sweep (source lines 124-132), put side. -/
noncomputable def put_prices (K T r min_spot max_spot min_vol max_vol : ℝ)
    (steps : ℕ) : List (List (Option ℝ)) :=
  (linspace min_vol max_vol steps).map fun sigma =>
    (linspace min_spot max_spot steps).map fun S =>
      black_scholes S K T r sigma "put"

/-- The sequence of pricer invocations made by the sweep loop, in program
order: for each volatility sample (outer loop) and each spot sample (inner
loop), one call invocation then one put invocation. -/
noncomputable def sweep_invocations (min_spot max_spot min_vol max_vol : ℝ)
    (steps : ℕ) : List (ℝ × ℝ × String) :=
  (linspace min_vol max_vol steps).flatMap fun sigma =>
    (linspace min_spot max_spot steps).flatMap fun S =>
      [(sigma, S, "call"), (sigma, S, "put")]

/-! ### List helper lemmas for the sweep -/

lemma length_linspace (lo hi : ℝ) (num : ℕ) : (linspace lo hi num).length = num := by
  rw [linspace, List.length_map, List.length_range]

lemma getElem?_linspace (lo hi : ℝ) {num i : ℕ} (h : i < num) :
    (linspace lo hi num)[i]? = some (lo + i * (hi - lo) / ((num : ℝ) - 1)) := by
  rw [linspace, List.getElem?_map, List.getElem?_range h, Option.map_some']

lemma flatMap_length_const {α β : Type} (l : List α) (F : α → List β) (c : ℕ)
    (h : ∀ a ∈ l, (F a).length = c) : (l.flatMap F).length = l.length * c := by
  induction l with
  | nil => simp
  | cons a t ih =>
    simp only [List.flatMap_cons, List.length_append, List.length_cons]
    rw [h a (List.mem_cons_self a t), ih fun b hb => h b (List.mem_cons_of_mem a hb)]
    ring

lemma flatMap_getElem?_const {α β : Type} (l : List α) (F : α → List β) (c : ℕ)
    (h : ∀ a ∈ l, (F a).length = c) :
    ∀ i k : ℕ, k < c → ∀ x, l[i]? = some x →
      (l.flatMap F)[c * i + k]? = (F x)[k]? := by
  induction l with
  | nil => intro i k _ x hx; simp at hx
  | cons a t ih =>
    intro i k hk x hx
    cases i with
    | zero =>
      simp only [List.getElem?_cons_zero, Option.some.injEq] at hx
      subst hx
      simp only [List.flatMap_cons, Nat.mul_zero, Nat.zero_add]
      exact List.getElem?_append_left (by rw [h a (List.mem_cons_self a t)]; exact hk)
    | succ n =>
      simp only [List.getElem?_cons_succ] at hx
      have ha : (F a).length = c := h a (List.mem_cons_self a t)
      have hle : (F a).length ≤ c * (n + 1) + k := by
        rw [ha]; nlinarith [Nat.zero_le (c * n), Nat.zero_le k]
      simp only [List.flatMap_cons]
      rw [List.getElem?_append_right hle, ha]
      have hsub : c * (n + 1) + k - c = c * n + k := by
        have : c * (n + 1) = c * n + c := by ring
        omega
      rw [hsub]
      exact ih (fun b hb => h b (List.mem_cons_of_mem a hb)) n k hk x hx

/-- Reduction of the pricing function at kind `"call"`. -/
lemma black_scholes_call (S K T r sigma : ℝ) :
    black_scholes S K T r sigma "call" =
      some (S * norm_cdf (d1 S K T r sigma) -
            K * Real.exp (-r * T) * norm_cdf (d2 S K T r sigma)) := by
  rw [black_scholes, if_pos rfl]

/-- Reduction of the pricing function at kind `"put"`. -/
lemma black_scholes_put (S K T r sigma : ℝ) :
    black_scholes S K T r sigma "put" =
      some (K * Real.exp (-r * T) * norm_cdf (-(d2 S K T r sigma)) -
            S * norm_cdf (-(d1 S K T r sigma))) := by
  rw [black_scholes, if_neg (by decide), if_pos rfl]

/-! ### Claim theorems: structural claims -/

/-- **C1.** For `S, K, T, sigma > 0` and any `r`, the pricing function
returns exactly `S·Φ(d1) − K·e^{−rT}·Φ(d2)` for a call and
`K·e^{−rT}·Φ(−d2) − S·Φ(−d1)` for a put, with
`d1 = (ln(S/K) + (r + σ²/2)·T)/(σ·√T)` and `d2 = d1 − σ·√T`. -/
theorem C1_price_formula (S K T r sigma : ℝ)
    (hS : 0 < S) (hK : 0 < K) (hT : 0 < T) (hs : 0 < sigma) :
    black_scholes S K T r sigma "call" =
      some (S * norm_cdf ((Real.log (S / K) + (r + sigma ^ 2 / 2) * T) /
              (sigma * Real.sqrt T)) -
            K * Real.exp (-r * T) *
              norm_cdf ((Real.log (S / K) + (r + sigma ^ 2 / 2) * T) /
                (sigma * Real.sqrt T) - sigma * Real.sqrt T)) ∧
    black_scholes S K T r sigma "put" =
      some (K * Real.exp (-r * T) *
              norm_cdf (-((Real.log (S / K) + (r + sigma ^ 2 / 2) * T) /
                (sigma * Real.sqrt T) - sigma * Real.sqrt T)) -
            S * norm_cdf (-((Real.log (S / K) + (r + sigma ^ 2 / 2) * T) /
              (sigma * Real.sqrt T)))) := by
  have e1 : (Real.log (S / K) + (r + sigma ^ 2 / 2) * T) / (sigma * Real.sqrt T) =
      d1 S K T r sigma := by
    rw [d1]; ring_nf
  have e2 : (Real.log (S / K) + (r + sigma ^ 2 / 2) * T) / (sigma * Real.sqrt T) -
      sigma * Real.sqrt T = d2 S K T r sigma := by
    rw [d2, e1]
  rw [black_scholes_call, black_scholes_put, e2, e1]
  exact ⟨rfl, rfl⟩

/-- Witness for C1 at `S=100, K=100, T=1, r=0.05, σ=0.2`. -/
theorem C1_price_formula_witness :
    black_scholes 100 100 1 (5/100) (2/10) "call" =
      some (100 * norm_cdf ((Real.log ((100:ℝ) / 100) + (5/100 + (2/10) ^ 2 / 2) * 1) /
              (2/10 * Real.sqrt 1)) -
            100 * Real.exp (-(5/100) * 1) *
              norm_cdf ((Real.log ((100:ℝ) / 100) + (5/100 + (2/10) ^ 2 / 2) * 1) /
                (2/10 * Real.sqrt 1) - 2/10 * Real.sqrt 1)) ∧
    black_scholes 100 100 1 (5/100) (2/10) "put" =
      some (100 * Real.exp (-(5/100) * 1) *
              norm_cdf (-((Real.log ((100:ℝ) / 100) + (5/100 + (2/10) ^ 2 / 2) * 1) /
                (2/10 * Real.sqrt 1) - 2/10 * Real.sqrt 1)) -
            100 * norm_cdf (-((Real.log ((100:ℝ) / 100) + (5/100 + (2/10) ^ 2 / 2) * 1) /
              (2/10 * Real.sqrt 1)))) :=
  C1_price_formula 100 100 1 (5/100) (2/10) (by norm_num) (by norm_num)
    (by norm_num) (by norm_num)

/-- **C3 counterexample.** At kind `"straddle"` the pricing function silently
returns Python's `None` (modelled `none`): it does not raise an
invalid-argument error and does not return a number, refuting the claim that
it "fails explicitly". -/
theorem C3_counterexample :
    black_scholes 100 100 1 (5/100) (2/10) "straddle" = none := by
  rw [black_scholes, if_neg (by decide), if_neg (by decide)]

/-- **C3 amended.** For every option kind outside `{call, put}`, the pricing
function returns no numeric result: it silently returns Python's implicit
`None` (modelled as `none`), raising no error. -/
theorem C3_invalid_kind_returns_none (S K T r sigma : ℝ) (kind : String)
    (h1 : kind ≠ "call") (h2 : kind ≠ "put") :
    black_scholes S K T r sigma kind = none := by
  rw [black_scholes, if_neg h1, if_neg h2]

/-- Witness for the amended C3 at kind `"straddle"`. -/
theorem C3_invalid_kind_returns_none_witness :
    black_scholes 1 1 1 0 1 "straddle" = none :=
  C3_invalid_kind_returns_none 1 1 1 0 1 "straddle" (by decide) (by decide)

/-- **C10.** The option-kind parameter defaults to `call`: invoking the
pricing function without a kind gives exactly the value at kind `call`. -/
theorem C10_default_kind_is_call (S K T r sigma : ℝ) :
    black_scholes S K T r sigma = black_scholes S K T r sigma "call" := rfl

/-- **C7.** Under the preconditions `S, K, T, sigma > 0` the denominator
`sigma * sqrt T` of `d1` is nonzero and the logarithm argument `S / K` is
positive (so `d1` is a genuine quotient: multiplying it back by the
denominator recovers the numerator); and whenever `sigma = 0` or `T = 0`
that denominator is zero, so the real formula divides by zero. -/
theorem C7_well_defined (S K T r sigma : ℝ) :
    (0 < S → 0 < K → 0 < T → 0 < sigma →
      sigma * Real.sqrt T ≠ 0 ∧ 0 < S / K ∧
      d1 S K T r sigma * (sigma * Real.sqrt T) =
        Real.log (S / K) + (r + 0.5 * sigma ^ 2) * T) ∧
    ((sigma = 0 ∨ T = 0) → sigma * Real.sqrt T = 0) := by
  constructor
  · intro hS hK hT hs
    have hden : sigma * Real.sqrt T ≠ 0 :=
      mul_ne_zero (ne_of_gt hs) (ne_of_gt (Real.sqrt_pos.mpr hT))
    exact ⟨hden, div_pos hS hK, by rw [d1]; exact div_mul_cancel₀ _ hden⟩
  · rintro (h | h) <;> simp [h]

/-- Witness for C7 at `(S,K,T,r,σ) = (3,1,1,0,2)` and, for the degenerate
branch, at `σ = 0`. -/
theorem C7_well_defined_witness :
    ((2:ℝ) * Real.sqrt 1 ≠ 0 ∧ 0 < (3:ℝ) / 1 ∧
      d1 3 1 1 0 2 * (2 * Real.sqrt 1) =
        Real.log ((3:ℝ) / 1) + (0 + 0.5 * 2 ^ 2) * 1) ∧
    (0:ℝ) * Real.sqrt 1 = 0 :=
  ⟨(C7_well_defined 3 1 1 0 2).1 (by norm_num) (by norm_num) (by norm_num)
      (by norm_num),
   (C7_well_defined 3 1 1 0 0).2 (Or.inl rfl)⟩

/-! ### Grid claims -/

lemma call_prices_cell (K T r a b c d : ℝ) {steps i j : ℕ}
    (hi : i < steps) (hj : j < steps) :
    ((call_prices K T r a b c d steps)[i]?.bind fun row => row[j]?) =
      some (black_scholes (a + (j:ℝ) * (b - a) / ((steps:ℝ) - 1)) K T r
        (c + (i:ℝ) * (d - c) / ((steps:ℝ) - 1)) "call") := by
  rw [call_prices, List.getElem?_map, getElem?_linspace c d hi, Option.map_some',
    Option.some_bind, List.getElem?_map, getElem?_linspace a b hj, Option.map_some']

lemma put_prices_cell (K T r a b c d : ℝ) {steps i j : ℕ}
    (hi : i < steps) (hj : j < steps) :
    ((put_prices K T r a b c d steps)[i]?.bind fun row => row[j]?) =
      some (black_scholes (a + (j:ℝ) * (b - a) / ((steps:ℝ) - 1)) K T r
        (c + (i:ℝ) * (d - c) / ((steps:ℝ) - 1)) "put") := by
  rw [put_prices, List.getElem?_map, getElem?_linspace c d hi, Option.map_some',
    Option.some_bind, List.getElem?_map, getElem?_linspace a b hj, Option.map_some']

/-- **C4.** With `steps = 10`, spot range `[50,150]`, volatility range
`[0.1,0.5]` and `K, T, r` fixed, the sweep yields two 10×10 grids; cell
`[i][j]` prices at the `i`-th ascending volatility sample and `j`-th
ascending spot sample (both sample sequences strictly increase); in
particular cell `[0][0]` is the pricer at `(S,σ) = (50, 0.1)` and cell
`[9][9]` the pricer at `(S,σ) = (150, 0.5)`. -/
theorem C4_grid_shape (K T r : ℝ) :
    (call_prices K T r 50 150 0.1 0.5 10).length = 10 ∧
    (put_prices K T r 50 150 0.1 0.5 10).length = 10 ∧
    (∀ row ∈ call_prices K T r 50 150 0.1 0.5 10, row.length = 10) ∧
    (∀ row ∈ put_prices K T r 50 150 0.1 0.5 10, row.length = 10) ∧
    (∀ i j : ℕ, i < 10 → j < 10 →
      ((call_prices K T r 50 150 0.1 0.5 10)[i]?.bind fun row => row[j]?) =
        some (black_scholes (50 + (j:ℝ) * (150 - 50) / 9) K T r
          (0.1 + (i:ℝ) * (0.5 - 0.1) / 9) "call") ∧
      ((put_prices K T r 50 150 0.1 0.5 10)[i]?.bind fun row => row[j]?) =
        some (black_scholes (50 + (j:ℝ) * (150 - 50) / 9) K T r
          (0.1 + (i:ℝ) * (0.5 - 0.1) / 9) "put")) ∧
    ((call_prices K T r 50 150 0.1 0.5 10)[0]?.bind fun row => row[0]?) =
      some (black_scholes 50 K T r 0.1 "call") ∧
    ((put_prices K T r 50 150 0.1 0.5 10)[0]?.bind fun row => row[0]?) =
      some (black_scholes 50 K T r 0.1 "put") ∧
    ((call_prices K T r 50 150 0.1 0.5 10)[9]?.bind fun row => row[9]?) =
      some (black_scholes 150 K T r 0.5 "call") ∧
    ((put_prices K T r 50 150 0.1 0.5 10)[9]?.bind fun row => row[9]?) =
      some (black_scholes 150 K T r 0.5 "put") ∧
    (∀ i j : ℕ, i < j → j < 10 →
      0.1 + (i:ℝ) * (0.5 - 0.1) / 9 < 0.1 + (j:ℝ) * (0.5 - 0.1) / 9) ∧
    (∀ i j : ℕ, i < j → j < 10 →
      50 + (i:ℝ) * (150 - 50) / 9 < 50 + (j:ℝ) * (150 - 50) / 9) := by
  have hlen : ∀ q : String, ((linspace (0.1:ℝ) 0.5 10).map fun sigma =>
      (linspace (50:ℝ) 150 10).map fun S => black_scholes S K T r sigma q).length
        = 10 := by
    intro q
    rw [List.length_map, length_linspace]
  have hrow : ∀ (q : String),
      ∀ row ∈ (linspace (0.1:ℝ) 0.5 10).map fun sigma =>
        (linspace (50:ℝ) 150 10).map fun S => black_scholes S K T r sigma q,
      row.length = 10 := by
    intro q row hrow
    obtain ⟨sigma, -, rfl⟩ := List.mem_map.mp hrow
    rw [List.length_map, length_linspace]
  have hcast : ((10:ℕ):ℝ) - 1 = 9 := by norm_num
  have hcell := fun (i j : ℕ) (hi : i < 10) (hj : j < 10) =>
    call_prices_cell K T r 50 150 0.1 0.5 hi hj
  have hcellp := fun (i j : ℕ) (hi : i < 10) (hj : j < 10) =>
    put_prices_cell K T r 50 150 0.1 0.5 hi hj
  refine ⟨hlen "call", hlen "put", hrow "call", hrow "put", ?_, ?_, ?_, ?_, ?_, ?_, ?_⟩
  · intro i j hi hj
    rw [hcell i j hi hj, hcellp i j hi hj, hcast]
    exact ⟨rfl, rfl⟩
  · rw [hcell 0 0 (by norm_num) (by norm_num)]; norm_num
  · rw [hcellp 0 0 (by norm_num) (by norm_num)]; norm_num
  · rw [hcell 9 9 (by norm_num) (by norm_num)]; norm_num
  · rw [hcellp 9 9 (by norm_num) (by norm_num)]; norm_num
  · intro i j hij hj
    have : (i:ℝ) < (j:ℝ) := by exact_mod_cast hij
    nlinarith
  · intro i j hij hj
    have : (i:ℝ) < (j:ℝ) := by exact_mod_cast hij
    nlinarith

/-- Witness for C4 at `K = 100, T = 1, r = 0.05`, projecting the general
cell formula at `i = j = 1`. -/
theorem C4_grid_shape_witness :
    (call_prices 100 1 (5/100) 50 150 0.1 0.5 10).length = 10 ∧
    ((call_prices 100 1 (5/100) 50 150 0.1 0.5 10)[1]?.bind fun row => row[1]?) =
      some (black_scholes (50 + (1:ℕ) * (150 - 50) / 9) 100 1 (5/100)
        (0.1 + (1:ℕ) * (0.5 - 0.1) / 9) "call") :=
  ⟨(C4_grid_shape 100 1 (5/100)).1,
   ((C4_grid_shape 100 1 (5/100)).2.2.2.2.1 1 1 (by norm_num) (by norm_num)).1⟩

/-- **C5.** `linspace` sampling and invocation count: sample `i` of a range
`(lo, hi)` is `lo + i*(hi-lo)/(steps-1)`; when `lo = hi` every sample equals
that common value; the sweep makes `2 * steps²` pricer invocations, and the
invocations for volatility index `i` and spot index `j` are exactly one call
(at position `2*steps*i + 2*j`) and one put (at the following position),
both at the `i`-th volatility sample and `j`-th spot sample. -/
theorem C5_sampling (a b c d : ℝ) (steps : ℕ) :
    (∀ i : ℕ, i < steps →
      (linspace a b steps)[i]? =
        some (a + (i:ℝ) * (b - a) / ((steps:ℝ) - 1))) ∧
    (a = b → ∀ x ∈ linspace a b steps, x = a) ∧
    (sweep_invocations a b c d steps).length = 2 * steps ^ 2 ∧
    (∀ i j : ℕ, i < steps → j < steps →
      (sweep_invocations a b c d steps)[2 * steps * i + 2 * j]? =
        some (c + (i:ℝ) * (d - c) / ((steps:ℝ) - 1),
              a + (j:ℝ) * (b - a) / ((steps:ℝ) - 1), "call") ∧
      (sweep_invocations a b c d steps)[2 * steps * i + 2 * j + 1]? =
        some (c + (i:ℝ) * (d - c) / ((steps:ℝ) - 1),
              a + (j:ℝ) * (b - a) / ((steps:ℝ) - 1), "put")) := by
  have hinner : ∀ sigma : ℝ,
      ((linspace a b steps).flatMap fun S =>
        [(sigma, S, "call"), (sigma, S, "put")]).length = steps * 2 := by
    intro sigma
    rw [flatMap_length_const (linspace a b steps)
      (fun S => [(sigma, S, "call"), (sigma, S, "put")]) 2 fun x _ => rfl,
      length_linspace]
  refine ⟨fun i hi => getElem?_linspace a b hi, ?_, ?_, ?_⟩
  · rintro rfl x hx
    rw [linspace] at hx
    obtain ⟨i, -, rfl⟩ := List.mem_map.mp hx
    ring
  · rw [sweep_invocations,
      flatMap_length_const _ _ (steps * 2) (fun sigma _ => hinner sigma),
      length_linspace]
    ring
  · intro i j hi hj
    have houter : ∀ k : ℕ, k < steps * 2 →
        (sweep_invocations a b c d steps)[steps * 2 * i + k]? =
          ((linspace a b steps).flatMap fun S =>
            [(c + (i:ℝ) * (d - c) / ((steps:ℝ) - 1), S, "call"),
             (c + (i:ℝ) * (d - c) / ((steps:ℝ) - 1), S, "put")])[k]? := by
      intro k hk
      exact flatMap_getElem?_const _ _ (steps * 2) (fun sigma _ => hinner sigma)
        i k hk _ (getElem?_linspace c d hi)
    have hindex : 2 * steps * i + 2 * j = steps * 2 * i + 2 * j := by ring
    have hindex1 : 2 * steps * i + 2 * j + 1 = steps * 2 * i + (2 * j + 1) := by ring
    have hk0 : 2 * j < steps * 2 := by omega
    have hk1 : 2 * j + 1 < steps * 2 := by omega
    constructor
    · rw [hindex, houter (2 * j) hk0]
      exact flatMap_getElem?_const (linspace a b steps)
        (fun S => [(c + (i:ℝ) * (d - c) / ((steps:ℝ) - 1), S, "call"),
                   (c + (i:ℝ) * (d - c) / ((steps:ℝ) - 1), S, "put")]) 2
        (fun x _ => rfl) j 0 (by omega) _ (getElem?_linspace a b hj)
    · rw [hindex1, houter (2 * j + 1) hk1]
      exact flatMap_getElem?_const (linspace a b steps)
        (fun S => [(c + (i:ℝ) * (d - c) / ((steps:ℝ) - 1), S, "call"),
                   (c + (i:ℝ) * (d - c) / ((steps:ℝ) - 1), S, "put")]) 2
        (fun x _ => rfl) j 1 (by omega) _ (getElem?_linspace a b hj)

/-- Witness for C5 over spot range `(0,1)`, volatility range `(0,1)` (and the
degenerate range `(0,0)` for the min = max part), `steps = 2`. -/
theorem C5_sampling_witness :
    (linspace 0 1 2)[1]? = some (0 + (1:ℕ) * ((1:ℝ) - 0) / (((2:ℕ):ℝ) - 1)) ∧
    (∀ x ∈ linspace 0 0 2, x = 0) ∧
    (sweep_invocations 0 1 0 1 2).length = 2 * 2 ^ 2 ∧
    (sweep_invocations 0 1 0 1 2)[2 * 2 * 1 + 2 * 1]? =
      some (0 + (1:ℕ) * ((1:ℝ) - 0) / (((2:ℕ):ℝ) - 1),
            0 + (1:ℕ) * ((1:ℝ) - 0) / (((2:ℕ):ℝ) - 1), "call") :=
  ⟨(C5_sampling 0 1 0 1 2).1 1 (by norm_num),
   (C5_sampling 0 0 0 1 2).2.1 rfl,
   (C5_sampling 0 1 0 1 2).2.2.1,
   ((C5_sampling 0 1 0 1 2).2.2.2 1 1 (by norm_num) (by norm_num)).1⟩

/-! ### Analytic properties of the standard normal density and CDF -/

lemma norm_pdf_eq_gaussian : norm_pdf = ProbabilityTheory.gaussianPDFReal 0 1 := by
  funext x
  rw [norm_pdf, ProbabilityTheory.gaussianPDFReal]
  norm_num

lemma norm_pdf_nonneg (x : ℝ) : 0 ≤ norm_pdf x := by
  rw [norm_pdf]; positivity

lemma norm_pdf_even (x : ℝ) : norm_pdf (-x) = norm_pdf x := by
  rw [norm_pdf, norm_pdf, neg_sq]

lemma integrable_norm_pdf : MeasureTheory.Integrable norm_pdf := by
  rw [norm_pdf_eq_gaussian]
  exact ProbabilityTheory.integrable_gaussianPDFReal 0 1

lemma integral_norm_pdf : ∫ x, norm_pdf x = 1 := by
  rw [norm_pdf_eq_gaussian]
  exact ProbabilityTheory.integral_gaussianPDFReal_eq_one 0 one_ne_zero

lemma continuous_norm_pdf : Continuous norm_pdf := by
  rw [norm_pdf_eq_gaussian, ProbabilityTheory.gaussianPDFReal_def]
  fun_prop

/-- `Φ(x) + Φ(-x) = 1`. -/
lemma norm_cdf_add_neg (x : ℝ) : norm_cdf x + norm_cdf (-x) = 1 := by
  have h1 : norm_cdf (-x) = ∫ t in Set.Ioi x, norm_pdf t := by
    rw [norm_cdf]
    have h2 : (∫ t in Set.Iic (-x), norm_pdf t) = ∫ t in Set.Iic (-x), norm_pdf (-t) := by
      refine setIntegral_congr_fun measurableSet_Iic fun t _ => ?_
      rw [norm_pdf_even]
    rw [h2, integral_comp_neg_Iic (-x) norm_pdf, neg_neg]
  rw [norm_cdf, h1, intervalIntegral.integral_Iic_add_Ioi
    integrable_norm_pdf.integrableOn integrable_norm_pdf.integrableOn,
    integral_norm_pdf]

lemma norm_cdf_nonneg (x : ℝ) : 0 ≤ norm_cdf x :=
  setIntegral_nonneg measurableSet_Iic fun t _ => norm_pdf_nonneg t

lemma norm_cdf_le_one (x : ℝ) : norm_cdf x ≤ 1 := by
  rw [← integral_norm_pdf]
  exact setIntegral_le_integral integrable_norm_pdf (Filter.Eventually.of_forall norm_pdf_nonneg)

/-- The algebraic core of put-call parity: the call branch value minus the
put branch value is `S - K·e^{-rT}`, for all real inputs. -/
lemma call_sub_put (S K T r sigma : ℝ) :
    (S * norm_cdf (d1 S K T r sigma) -
      K * Real.exp (-r * T) * norm_cdf (d2 S K T r sigma)) -
    (K * Real.exp (-r * T) * norm_cdf (-(d2 S K T r sigma)) -
      S * norm_cdf (-(d1 S K T r sigma))) = S - K * Real.exp (-r * T) := by
  have h1 := norm_cdf_add_neg (d1 S K T r sigma)
  have h2 := norm_cdf_add_neg (d2 S K T r sigma)
  linear_combination S * h1 - K * Real.exp (-r * T) * h2

/-- **C2.** Put-call parity: for every `S, K, T, sigma > 0` and any real `r`,
the call price minus the put price returned by the pricing function equals
`S - K·e^{-rT}` exactly, over the real-number embedding. -/
theorem C2_put_call_parity (S K T r sigma : ℝ)
    (hS : 0 < S) (hK : 0 < K) (hT : 0 < T) (hs : 0 < sigma) :
    ∀ c p : ℝ, black_scholes S K T r sigma "call" = some c →
      black_scholes S K T r sigma "put" = some p →
      c - p = S - K * Real.exp (-r * T) := by
  intro c p hc hp
  rw [black_scholes_call] at hc
  rw [black_scholes_put] at hp
  obtain rfl : _ = c := Option.some.inj hc
  obtain rfl : _ = p := Option.some.inj hp
  exact call_sub_put S K T r sigma

/-- Witness for C2 at `S=100, K=100, T=1, r=0.05, σ=0.2`. -/
theorem C2_put_call_parity_witness :
    (100 * norm_cdf (d1 100 100 1 (5/100) (2/10)) -
      100 * Real.exp (-(5/100) * 1) * norm_cdf (d2 100 100 1 (5/100) (2/10))) -
    (100 * Real.exp (-(5/100) * 1) * norm_cdf (-(d2 100 100 1 (5/100) (2/10))) -
      100 * norm_cdf (-(d1 100 100 1 (5/100) (2/10)))) =
    100 - 100 * Real.exp (-(5/100) * 1) :=
  C2_put_call_parity 100 100 1 (5/100) (2/10) (by norm_num) (by norm_num)
    (by norm_num) (by norm_num) _ _
    (black_scholes_call 100 100 1 (5/100) (2/10))
    (black_scholes_put 100 100 1 (5/100) (2/10))

/-- **C8.** Symmetry: for `S = K > 0`, `T > 0`, `sigma > 0` and `r = 0`, the
call price equals the put price returned by the pricing function. -/
theorem C8_symmetry (S K T sigma : ℝ)
    (hSK : S = K) (hS : 0 < S) (hT : 0 < T) (hs : 0 < sigma) :
    ∀ c p : ℝ, black_scholes S K T 0 sigma "call" = some c →
      black_scholes S K T 0 sigma "put" = some p → c = p := by
  intro c p hc hp
  rw [black_scholes_call] at hc
  rw [black_scholes_put] at hp
  obtain rfl : _ = c := Option.some.inj hc
  obtain rfl : _ = p := Option.some.inj hp
  have h := call_sub_put S K T 0 sigma
  rw [hSK] at h ⊢
  simp only [neg_zero, zero_mul, Real.exp_zero, mul_one] at h ⊢
  linarith

/-- Witness for C8 at `S = K = 100, T = 1, σ = 0.2`. -/
theorem C8_symmetry_witness :
    (100 * norm_cdf (d1 100 100 1 0 (2/10)) -
      100 * Real.exp (-0 * 1) * norm_cdf (d2 100 100 1 0 (2/10))) =
    (100 * Real.exp (-0 * 1) * norm_cdf (-(d2 100 100 1 0 (2/10))) -
      100 * norm_cdf (-(d1 100 100 1 0 (2/10)))) :=
  C8_symmetry 100 100 1 (2/10) rfl (by norm_num) (by norm_num) (by norm_num) _ _
    (black_scholes_call 100 100 1 0 (2/10))
    (black_scholes_put 100 100 1 0 (2/10))

/-! ### Differentiability of the CDF and monotonicity in spot -/

lemma norm_cdf_eq_interval (x : ℝ) :
    norm_cdf x = norm_cdf 0 + ∫ t in (0:ℝ)..x, norm_pdf t := by
  have h : (∫ t in Set.Iic x, norm_pdf t) - ∫ t in Set.Iic (0:ℝ), norm_pdf t =
      ∫ t in (0:ℝ)..x, norm_pdf t :=
    intervalIntegral.integral_Iic_sub_Iic integrable_norm_pdf.integrableOn
      integrable_norm_pdf.integrableOn
  rw [norm_cdf, norm_cdf]
  linarith

lemma hasDerivAt_norm_cdf (x : ℝ) : HasDerivAt norm_cdf (norm_pdf x) x := by
  have h : HasDerivAt (fun u => ∫ t in (0:ℝ)..u, norm_pdf t) (norm_pdf x) x :=
    intervalIntegral.integral_hasDerivAt_right
      integrable_norm_pdf.intervalIntegrable
      (continuous_norm_pdf.stronglyMeasurableAtFilter _ _)
      continuous_norm_pdf.continuousAt
  have heq : norm_cdf = fun u => norm_cdf 0 + ∫ t in (0:ℝ)..u, norm_pdf t :=
    funext norm_cdf_eq_interval
  rw [heq]
  exact h.const_add (norm_cdf 0)

/-- The classical density identity `S·φ(d1) = K·e^{-rT}·φ(d2)`. -/
lemma pdf_identity (S K T r sigma : ℝ)
    (hS : 0 < S) (hK : 0 < K) (hT : 0 < T) (hs : 0 < sigma) :
    S * norm_pdf (d1 S K T r sigma) =
      K * Real.exp (-r * T) * norm_pdf (d2 S K T r sigma) := by
  have hden : sigma * Real.sqrt T ≠ 0 :=
    mul_ne_zero hs.ne' (Real.sqrt_pos.mpr hT).ne'
  have hd1 : d1 S K T r sigma * (sigma * Real.sqrt T) =
      Real.log (S / K) + (r + 0.5 * sigma ^ 2) * T := by
    rw [d1]; exact div_mul_cancel₀ _ hden
  have hsq : Real.sqrt T ^ 2 = T := Real.sq_sqrt hT.le
  have hexp : -(d1 S K T r sigma - sigma * Real.sqrt T) ^ 2 / 2 =
      -(d1 S K T r sigma) ^ 2 / 2 + Real.log (S / K) + r * T := by
    linear_combination hd1 - sigma ^ 2 / 2 * hsq
  rw [norm_pdf, norm_pdf, d2, hexp, Real.exp_add, Real.exp_add,
    Real.exp_log (div_pos hS hK)]
  have hne : Real.exp (r * T) ≠ 0 := Real.exp_ne_zero _
  rw [show -r * T = -(r * T) by ring, Real.exp_neg]
  field_simp
  ring

/-- The call branch value, as a function of spot with the other inputs
fixed, has derivative `Φ(d1)` at every positive spot. -/
lemma hasDerivAt_call (K T r sigma : ℝ)
    (hK : 0 < K) (hT : 0 < T) (hs : 0 < sigma) (S : ℝ) (hS : 0 < S) :
    HasDerivAt (fun s => s * norm_cdf (d1 s K T r sigma) -
        K * Real.exp (-r * T) * norm_cdf (d2 s K T r sigma))
      (norm_cdf (d1 S K T r sigma)) S := by
  have hden : sigma * Real.sqrt T ≠ 0 :=
    mul_ne_zero hs.ne' (Real.sqrt_pos.mpr hT).ne'
  have hlog : HasDerivAt (fun s : ℝ => Real.log (s / K)) (1 / S) S := by
    have h1 : HasDerivAt (fun s : ℝ => s / K) (1 / K) S := by
      simpa using (hasDerivAt_id S).div_const K
    have h2 := (Real.hasDerivAt_log (div_ne_zero hS.ne' hK.ne')).comp S h1
    have h3 : HasDerivAt (fun s : ℝ => Real.log (s / K)) ((S / K)⁻¹ * (1 / K)) S := h2
    have hval : (S / K)⁻¹ * (1 / K) = 1 / S := by
      field_simp
      ring
    rwa [hval] at h3
  have hd1S : HasDerivAt (fun s => d1 s K T r sigma)
      (1 / (S * (sigma * Real.sqrt T))) S := by
    have heq : (fun s => d1 s K T r sigma) =
        fun s => (Real.log (s / K) + (r + 0.5 * sigma ^ 2) * T) /
          (sigma * Real.sqrt T) := by
      funext s; rw [d1]
    rw [heq]
    have h := (hlog.add_const ((r + 0.5 * sigma ^ 2) * T)).div_const
      (sigma * Real.sqrt T)
    have hval : 1 / S / (sigma * Real.sqrt T) = 1 / (S * (sigma * Real.sqrt T)) := by
      field_simp
    rwa [hval] at h
  have hd2S : HasDerivAt (fun s => d2 s K T r sigma)
      (1 / (S * (sigma * Real.sqrt T))) S := by
    have heq : (fun s => d2 s K T r sigma) =
        fun s => d1 s K T r sigma - sigma * Real.sqrt T := by
      funext s; rw [d2]
    rw [heq]
    exact hd1S.sub_const _
  have hphi1 : HasDerivAt (fun s => norm_cdf (d1 s K T r sigma))
      (norm_pdf (d1 S K T r sigma) * (1 / (S * (sigma * Real.sqrt T)))) S := by
    have := (hasDerivAt_norm_cdf (d1 S K T r sigma)).comp S hd1S
    simpa [Function.comp] using this
  have hphi2 : HasDerivAt (fun s => norm_cdf (d2 s K T r sigma))
      (norm_pdf (d2 S K T r sigma) * (1 / (S * (sigma * Real.sqrt T)))) S := by
    have := (hasDerivAt_norm_cdf (d2 S K T r sigma)).comp S hd2S
    simpa [Function.comp] using this
  have h1 : HasDerivAt (fun s => s * norm_cdf (d1 s K T r sigma))
      (1 * norm_cdf (d1 S K T r sigma) +
        S * (norm_pdf (d1 S K T r sigma) * (1 / (S * (sigma * Real.sqrt T))))) S :=
    (hasDerivAt_id S).mul hphi1
  have h2 : HasDerivAt
      (fun s => K * Real.exp (-r * T) * norm_cdf (d2 s K T r sigma))
      (K * Real.exp (-r * T) *
        (norm_pdf (d2 S K T r sigma) * (1 / (S * (sigma * Real.sqrt T))))) S :=
    hphi2.const_mul _
  have h3 := h1.sub h2
  have hid := pdf_identity S K T r sigma hS hK hT hs
  have hSden : S * (sigma * Real.sqrt T) ≠ 0 := mul_ne_zero hS.ne' hden
  have hval : norm_cdf (d1 S K T r sigma) =
      1 * norm_cdf (d1 S K T r sigma) +
        S * (norm_pdf (d1 S K T r sigma) * (1 / (S * (sigma * Real.sqrt T)))) -
      K * Real.exp (-r * T) *
        (norm_pdf (d2 S K T r sigma) * (1 / (S * (sigma * Real.sqrt T)))) := by
    linear_combination (-(1 / (S * (sigma * Real.sqrt T)))) * hid
  rw [hval]
  exact h3

/-- **C6.** Monotonicity in spot: with `K, T, sigma > 0` and any real `r`
fixed, for `0 < S1 ≤ S2` the call price at `S1` is at most the call price at
`S2`, and the put price at `S1` is at least the put price at `S2`. -/
theorem C6_monotone_in_spot (K T r sigma S1 S2 : ℝ)
    (hK : 0 < K) (hT : 0 < T) (hs : 0 < sigma)
    (hS1 : 0 < S1) (h12 : S1 ≤ S2) :
    (∀ c1 c2 : ℝ, black_scholes S1 K T r sigma "call" = some c1 →
      black_scholes S2 K T r sigma "call" = some c2 → c1 ≤ c2) ∧
    (∀ p1 p2 : ℝ, black_scholes S1 K T r sigma "put" = some p1 →
      black_scholes S2 K T r sigma "put" = some p2 → p2 ≤ p1) := by
  set f : ℝ → ℝ := fun s => s * norm_cdf (d1 s K T r sigma) -
    K * Real.exp (-r * T) * norm_cdf (d2 s K T r sigma) with hf
  have key : f S2 - f S1 ≥ 0 ∧ f S2 - f S1 ≤ S2 - S1 := by
    rcases eq_or_lt_of_le h12 with rfl | hlt
    · constructor <;> simp
    · have hcont : ContinuousOn f (Set.Icc S1 S2) := by
        intro s hsmem
        exact (hasDerivAt_call K T r sigma hK hT hs s
          (lt_of_lt_of_le hS1 hsmem.1)).continuousAt.continuousWithinAt
      have hderiv : ∀ s ∈ Set.Ioo S1 S2,
          HasDerivAt f (norm_cdf (d1 s K T r sigma)) s := fun s hsmem =>
        hasDerivAt_call K T r sigma hK hT hs s (lt_trans hS1 hsmem.1)
      obtain ⟨c, hc, hslope⟩ := exists_hasDerivAt_eq_slope f
        (fun s => norm_cdf (d1 s K T r sigma)) hlt hcont hderiv
      have hΦ0 : 0 ≤ norm_cdf (d1 c K T r sigma) := norm_cdf_nonneg _
      have hΦ1 : norm_cdf (d1 c K T r sigma) ≤ 1 := norm_cdf_le_one _
      have hpos : 0 < S2 - S1 := by linarith
      rw [eq_comm, div_eq_iff hpos.ne'] at hslope
      constructor
      · nlinarith
      · nlinarith
  constructor
  · intro c1 c2 hc1 hc2
    rw [black_scholes_call] at hc1 hc2
    obtain rfl : _ = c1 := Option.some.inj hc1
    obtain rfl : _ = c2 := Option.some.inj hc2
    have := key.1
    rw [hf] at this
    simpa using this
  · intro p1 p2 hp1 hp2
    rw [black_scholes_put] at hp1 hp2
    obtain rfl : _ = p1 := Option.some.inj hp1
    obtain rfl : _ = p2 := Option.some.inj hp2
    have h1 := call_sub_put S1 K T r sigma
    have h2 := call_sub_put S2 K T r sigma
    have := key.2
    rw [hf] at this
    simp only at this h1 h2
    linarith

/-- Witness for C6 at `K=100, T=1, r=0.05, σ=0.2, S1=90, S2=110` (call side
shown; both sides are instantiated through the theorem). -/
theorem C6_monotone_in_spot_witness :
    (90 * norm_cdf (d1 90 100 1 (5/100) (2/10)) -
      100 * Real.exp (-(5/100) * 1) * norm_cdf (d2 90 100 1 (5/100) (2/10))) ≤
    (110 * norm_cdf (d1 110 100 1 (5/100) (2/10)) -
      100 * Real.exp (-(5/100) * 1) * norm_cdf (d2 110 100 1 (5/100) (2/10))) :=
  (C6_monotone_in_spot 100 1 (5/100) (2/10) 90 110 (by norm_num) (by norm_num)
    (by norm_num) (by norm_num) (by norm_num)).1 _ _
    (black_scholes_call 90 100 1 (5/100) (2/10))
    (black_scholes_call 110 100 1 (5/100) (2/10))

/-! ### Certified numerical bounds for the concrete scenario -/

lemma norm_cdf_zero : norm_cdf 0 = 1 / 2 := by
  have h := norm_cdf_add_neg 0
  rw [neg_zero] at h
  linarith

lemma norm_cdf_formula (x : ℝ) :
    norm_cdf x = 1 / 2 +
      (Real.sqrt (2 * Real.pi))⁻¹ * ∫ t in (0:ℝ)..x, Real.exp (-t ^ 2 / 2) := by
  rw [norm_cdf_eq_interval, norm_cdf_zero]
  congr 1
  simp only [norm_pdf]
  rw [intervalIntegral.integral_const_mul]

lemma sqrt_two_pi_bounds :
    (2.506627:ℝ) < Real.sqrt (2 * Real.pi) ∧ Real.sqrt (2 * Real.pi) < 2.506629 := by
  have h1 := Real.pi_gt_d6
  have h2 := Real.pi_lt_d6
  constructor
  · have h : (2.506627:ℝ) ^ 2 < 2 * Real.pi := by nlinarith [h1]
    exact (Real.lt_sqrt (by norm_num)).mpr h
  · have h : 2 * Real.pi < (2.506629:ℝ) ^ 2 := by nlinarith [h2]
    exact (Real.sqrt_lt' (by norm_num)).mpr h

/-- Degree-3 Taylor bracketing of `exp(-t²/2)` on `[0, 1]`. -/
lemma exp_taylor_bounds {t : ℝ} (h0 : 0 ≤ t) (h1 : t ≤ 1) :
    1 - t ^ 2 / 2 + t ^ 4 / 8 - t ^ 6 / 36 ≤ Real.exp (-t ^ 2 / 2) ∧
    Real.exp (-t ^ 2 / 2) ≤ 1 - t ^ 2 / 2 + t ^ 4 / 8 + t ^ 6 / 36 := by
  have habs : |(-t ^ 2 / 2 : ℝ)| ≤ 1 := by
    rw [abs_of_nonpos (by nlinarith)]
    nlinarith
  have hb := @Real.exp_bound (-t ^ 2 / 2) habs 3 (by norm_num)
  have h := abs_le.mp hb
  rw [abs_of_nonpos (by nlinarith : (-t ^ 2 / 2 : ℝ) ≤ 0)] at h
  rw [Finset.sum_range_succ, Finset.sum_range_succ, Finset.sum_range_one] at h
  norm_num [Nat.factorial] at h
  constructor <;> nlinarith [h.1, h.2]

lemma integral_poly_lo (x : ℝ) :
    (∫ t in (0:ℝ)..x, (1 - t ^ 2 / 2 + t ^ 4 / 8 - t ^ 6 / 36)) =
      x - x ^ 3 / 6 + x ^ 5 / 40 - x ^ 7 / 252 := by
  have hF : ∀ t : ℝ, HasDerivAt
      (fun u : ℝ => u - u ^ 3 / 6 + u ^ 5 / 40 - u ^ 7 / 252)
      (1 - t ^ 2 / 2 + t ^ 4 / 8 - t ^ 6 / 36) t := by
    intro t
    have h := (((hasDerivAt_id t).sub ((hasDerivAt_pow 3 t).div_const 6)).add
      ((hasDerivAt_pow 5 t).div_const 40)).sub ((hasDerivAt_pow 7 t).div_const 252)
    convert h using 1
    push_cast
    ring
  have hcont : Continuous fun t : ℝ => 1 - t ^ 2 / 2 + t ^ 4 / 8 - t ^ 6 / 36 :=
    ((continuous_const.sub ((continuous_pow 2).div_const 2)).add
      ((continuous_pow 4).div_const 8)).sub ((continuous_pow 6).div_const 36)
  rw [intervalIntegral.integral_eq_sub_of_hasDerivAt (fun t _ => hF t)
    (hcont.intervalIntegrable 0 x)]
  norm_num

lemma integral_poly_hi (x : ℝ) :
    (∫ t in (0:ℝ)..x, (1 - t ^ 2 / 2 + t ^ 4 / 8 + t ^ 6 / 36)) =
      x - x ^ 3 / 6 + x ^ 5 / 40 + x ^ 7 / 252 := by
  have hF : ∀ t : ℝ, HasDerivAt
      (fun u : ℝ => u - u ^ 3 / 6 + u ^ 5 / 40 + u ^ 7 / 252)
      (1 - t ^ 2 / 2 + t ^ 4 / 8 + t ^ 6 / 36) t := by
    intro t
    have h := (((hasDerivAt_id t).sub ((hasDerivAt_pow 3 t).div_const 6)).add
      ((hasDerivAt_pow 5 t).div_const 40)).add ((hasDerivAt_pow 7 t).div_const 252)
    convert h using 1
    push_cast
    ring
  have hcont : Continuous fun t : ℝ => 1 - t ^ 2 / 2 + t ^ 4 / 8 + t ^ 6 / 36 :=
    ((continuous_const.sub ((continuous_pow 2).div_const 2)).add
      ((continuous_pow 4).div_const 8)).add ((continuous_pow 6).div_const 36)
  rw [intervalIntegral.integral_eq_sub_of_hasDerivAt (fun t _ => hF t)
    (hcont.intervalIntegrable 0 x)]
  norm_num

lemma I_bounds (x : ℝ) (hx0 : 0 ≤ x) (hx1 : x ≤ 1) :
    x - x ^ 3 / 6 + x ^ 5 / 40 - x ^ 7 / 252 ≤
      (∫ t in (0:ℝ)..x, Real.exp (-t ^ 2 / 2)) ∧
    (∫ t in (0:ℝ)..x, Real.exp (-t ^ 2 / 2)) ≤
      x - x ^ 3 / 6 + x ^ 5 / 40 + x ^ 7 / 252 := by
  have hexpc : Continuous fun t : ℝ => Real.exp (-t ^ 2 / 2) :=
    Real.continuous_exp.comp (((continuous_pow 2).neg).div_const 2)
  have hlocont : Continuous fun t : ℝ => 1 - t ^ 2 / 2 + t ^ 4 / 8 - t ^ 6 / 36 :=
    ((continuous_const.sub ((continuous_pow 2).div_const 2)).add
      ((continuous_pow 4).div_const 8)).sub ((continuous_pow 6).div_const 36)
  have hhicont : Continuous fun t : ℝ => 1 - t ^ 2 / 2 + t ^ 4 / 8 + t ^ 6 / 36 :=
    ((continuous_const.sub ((continuous_pow 2).div_const 2)).add
      ((continuous_pow 4).div_const 8)).add ((continuous_pow 6).div_const 36)
  constructor
  · rw [← integral_poly_lo x]
    exact intervalIntegral.integral_mono_on hx0 (hlocont.intervalIntegrable 0 x)
      (hexpc.intervalIntegrable 0 x)
      fun t ht => (exp_taylor_bounds ht.1 (le_trans ht.2 hx1)).1
  · rw [← integral_poly_hi x]
    exact intervalIntegral.integral_mono_on hx0 (hexpc.intervalIntegrable 0 x)
      (hhicont.intervalIntegrable 0 x)
      fun t ht => (exp_taylor_bounds ht.1 (le_trans ht.2 hx1)).2

lemma norm_cdf_bounds_of (x Il Iu : ℝ)
    (hIl : Il ≤ ∫ t in (0:ℝ)..x, Real.exp (-t ^ 2 / 2))
    (hIu : (∫ t in (0:ℝ)..x, Real.exp (-t ^ 2 / 2)) ≤ Iu)
    (hIlpos : 0 ≤ Il) :
    1 / 2 + Il / 2.506629 ≤ norm_cdf x ∧ norm_cdf x ≤ 1 / 2 + Iu / 2.506627 := by
  obtain ⟨hs1, hs2⟩ := sqrt_two_pi_bounds
  have hspos : (0:ℝ) < Real.sqrt (2 * Real.pi) := by linarith
  have hinvpos : (0:ℝ) < (Real.sqrt (2 * Real.pi))⁻¹ := inv_pos.mpr hspos
  have hinv_lo : ((2.506629:ℝ))⁻¹ < (Real.sqrt (2 * Real.pi))⁻¹ :=
    inv_lt_inv_of_lt hspos hs2
  have hinv_hi : (Real.sqrt (2 * Real.pi))⁻¹ < ((2.506627:ℝ))⁻¹ :=
    inv_lt_inv_of_lt (by norm_num) hs1
  have hInn : 0 ≤ ∫ t in (0:ℝ)..x, Real.exp (-t ^ 2 / 2) := le_trans hIlpos hIl
  have hcdf := norm_cdf_formula x
  constructor
  · have h1 : (2.506629:ℝ)⁻¹ * Il ≤
        (Real.sqrt (2 * Real.pi))⁻¹ * ∫ t in (0:ℝ)..x, Real.exp (-t ^ 2 / 2) :=
      mul_le_mul (le_of_lt hinv_lo) hIl hIlpos (le_of_lt hinvpos)
    have h2 : Il / 2.506629 = (2.506629:ℝ)⁻¹ * Il := by ring
    linarith
  · have h1 : (Real.sqrt (2 * Real.pi))⁻¹ *
        (∫ t in (0:ℝ)..x, Real.exp (-t ^ 2 / 2)) ≤ (2.506627:ℝ)⁻¹ * Iu :=
      mul_le_mul (le_of_lt hinv_hi) hIu hInn (by norm_num)
    have h2 : Iu / 2.506627 = (2.506627:ℝ)⁻¹ * Iu := by ring
    linarith

lemma norm_cdf_35_bounds :
    (0.63682:ℝ) < norm_cdf (7/20) ∧ norm_cdf (7/20) < 0.63684 := by
  obtain ⟨hIl, hIu⟩ := I_bounds (7/20) (by norm_num) (by norm_num)
  obtain ⟨h1, h2⟩ := norm_cdf_bounds_of (7/20) _ _ hIl hIu (by norm_num)
  constructor
  · refine lt_of_lt_of_le ?_ h1
    norm_num
  · refine lt_of_le_of_lt h2 ?_
    norm_num

lemma norm_cdf_15_bounds :
    (0.55961:ℝ) < norm_cdf (3/20) ∧ norm_cdf (3/20) < 0.55962 := by
  obtain ⟨hIl, hIu⟩ := I_bounds (3/20) (by norm_num) (by norm_num)
  obtain ⟨h1, h2⟩ := norm_cdf_bounds_of (3/20) _ _ hIl hIu (by norm_num)
  constructor
  · refine lt_of_lt_of_le ?_ h1
    norm_num
  · refine lt_of_le_of_lt h2 ?_
    norm_num

lemma exp_neg_inv20_bounds :
    (0.951228:ℝ) < Real.exp (-(1/20)) ∧ Real.exp (-(1/20)) < 0.95123 := by
  have hb := @Real.exp_bound (-(1/20) : ℝ)
    (by rw [abs_le]; constructor <;> norm_num) 4 (by norm_num)
  have h := abs_le.mp hb
  have habs : |(-(1/20) : ℝ)| = 1/20 := by
    rw [abs_of_nonpos (by norm_num)]
    norm_num
  rw [habs] at h
  rw [Finset.sum_range_succ, Finset.sum_range_succ, Finset.sum_range_succ,
    Finset.sum_range_one] at h
  norm_num [Nat.factorial] at h
  constructor <;> nlinarith [h.1, h.2]

lemma d1_val : d1 100 100 1 (5/100) (2/10) = 7/20 := by
  rw [d1]
  norm_num [Real.log_one, Real.sqrt_one]

lemma d2_val : d2 100 100 1 (5/100) (2/10) = 3/20 := by
  rw [d2, d1_val]
  rw [Real.sqrt_one]
  norm_num

/-- **C9.** Concrete scenario: at `S=100, K=100, T=1, r=0.05, σ=0.2` the
pricing function returns a call price within `0.01` of `10.45` and a put
price within `0.01` of `5.57`. -/
theorem C9_concrete_scenario (c p : ℝ)
    (hc : black_scholes 100 100 1 (5/100) (2/10) "call" = some c)
    (hp : black_scholes 100 100 1 (5/100) (2/10) "put" = some p) :
    |c - 10.45| ≤ 0.01 ∧ |p - 5.57| ≤ 0.01 := by
  rw [black_scholes_call] at hc
  rw [black_scholes_put] at hp
  obtain rfl : _ = c := Option.some.inj hc
  obtain rfl : _ = p := Option.some.inj hp
  rw [d1_val, d2_val]
  have he : (-(5/100) * 1 : ℝ) = -(1/20) := by norm_num
  rw [he]
  have hneg35 : norm_cdf (-(7/20 : ℝ)) = 1 - norm_cdf (7/20) := by
    linarith [norm_cdf_add_neg (7/20 : ℝ)]
  have hneg15 : norm_cdf (-(3/20 : ℝ)) = 1 - norm_cdf (3/20) := by
    linarith [norm_cdf_add_neg (3/20 : ℝ)]
  rw [hneg35, hneg15]
  obtain ⟨h35l, h35u⟩ := norm_cdf_35_bounds
  obtain ⟨h15l, h15u⟩ := norm_cdf_15_bounds
  obtain ⟨hel, heu⟩ := exp_neg_inv20_bounds
  have hppos : (0:ℝ) ≤ Real.exp (-(1/20)) := (Real.exp_pos _).le
  have hcpos : (0:ℝ) ≤ norm_cdf (3/20) := norm_cdf_nonneg _
  have hprod_u : Real.exp (-(1/20)) * norm_cdf (3/20) < 0.95123 * 0.55962 :=
    mul_lt_mul'' heu h15u hppos hcpos
  have hprod_l : (0.951228:ℝ) * 0.55961 < Real.exp (-(1/20)) * norm_cdf (3/20) :=
    mul_lt_mul'' hel h15l (by norm_num) (by norm_num)
  constructor
  · rw [abs_le]
    constructor <;> nlinarith [hprod_u, hprod_l, h35l, h35u]
  · rw [abs_le]
    constructor <;> nlinarith [hprod_u, hprod_l, h35l, h35u, hel, heu]

/-- Witness for C9: the concrete call and put branch values satisfy the
stated tolerances. -/
theorem C9_concrete_scenario_witness :
    |(100 * norm_cdf (d1 100 100 1 (5/100) (2/10)) -
      100 * Real.exp (-(5/100) * 1) * norm_cdf (d2 100 100 1 (5/100) (2/10))) -
      10.45| ≤ 0.01 ∧
    |(100 * Real.exp (-(5/100) * 1) * norm_cdf (-(d2 100 100 1 (5/100) (2/10))) -
      100 * norm_cdf (-(d1 100 100 1 (5/100) (2/10)))) - 5.57| ≤ 0.01 :=
  C9_concrete_scenario _ _
    (black_scholes_call 100 100 1 (5/100) (2/10))
    (black_scholes_put 100 100 1 (5/100) (2/10))

end BS
